import Mathlib

/-!
# Verification of the NER data-preparation pipeline (`ner_cluster.py`)

Shallow embedding of the label-cleaning, vocabulary-construction,
subword-alignment, prediction-decoding, IOB-parsing and trial control-flow
logic of `src/ner_cluster.py`, together with proofs of the specified
properties.

Python strings are modelled as Lean `String` where only comparison and
membership matter (labels, vocabulary), and as `List Char` where the code
manipulates the characters themselves (line parsing: `strip`, `split`,
`startswith`).
-/

namespace NER

/-- The expected (allowed) label set of the source
(`expected_labels = {'O', 'B-Gene', 'I-SNP', 'I-Gene', 'B-SNP', 'B-RS'}`),
modelled as a list; only membership is ever used. -/
def expected_labels : List String := ["O", "B-Gene", "I-SNP", "I-Gene", "B-SNP", "B-RS"]

/-- `clean_labels` of the source:
`[label if label in expected_labels else 'O' for label in label_list]`. -/
def clean_labels (label_list : List String) : List String :=
  label_list.map (fun label => if label ∈ expected_labels then label else "O")

/-- `cleaned_unique_labels` of the source:
`list(set(label for sublist in cleaned_train_labels for label in sublist))`,
applied to `cleaned_train_labels = [clean_labels l for l in train_labels]`.
The source materializes an unordered set in unspecified iteration order; we
model it as the duplicate-free list of the tags occurring in the cleaned
training corpus (membership is order-independent). -/
def cleaned_unique_labels (train_labels : List (List String)) : List String :=
  ((train_labels.map clean_labels).flatten).dedup

/-- Python's `list.index` as used in
`cleaned_unique_labels.index(label[word_idx])`: the first index holding the
value, or failure (`ValueError`) when the value is absent. -/
def listIndex (vocab : List String) (t : String) : Option Nat :=
  vocab.findIdx? (fun s => s == t)

theorem mem_cleaned_unique_labels (train_labels : List (List String)) (t : String) :
    t ∈ cleaned_unique_labels train_labels ↔ t ∈ (train_labels.map clean_labels).flatten := by
  simp [cleaned_unique_labels, List.mem_dedup]

theorem listIndex_isSome_of_mem {vocab : List String} {t : String} (h : t ∈ vocab) :
    (listIndex vocab t).isSome := by
  rw [listIndex, List.findIdx?_isSome]
  exact List.any_eq_true.mpr ⟨t, h, by simp⟩

/-- C5: `clean_labels` maps every tag outside the allowed set to "O", keeps
allowed tags, preserves length and order (pointwise characterization via
`getElem?`), and rewrites "B-Disease" to "O" at every occurrence. -/
theorem clean_labels_spec (l : List String) :
    (clean_labels l).length = l.length ∧
    (∀ i : Nat, (clean_labels l)[i]? =
      (l[i]?).map (fun t => if t ∈ expected_labels then t else "O")) ∧
    (∀ i : Nat, l[i]? = some "B-Disease" → (clean_labels l)[i]? = some "O") ∧
    clean_labels ["B-SNP", "B-Disease", "O", "B-Disease"] = ["B-SNP", "O", "O", "O"] := by
  refine ⟨by simp [clean_labels], fun i => by simp [clean_labels], fun i h => ?_, by decide⟩
  simp [clean_labels, h]
  decide

/-- Every tag `clean_labels` can produce is in the allowed set. -/
theorem clean_tag_mem (t : String) :
    (if t ∈ expected_labels then t else "O") ∈ expected_labels := by
  by_cases h : t ∈ expected_labels
  · simp only [if_pos h]
    exact h
  · simp only [if_neg h]
    decide

/-- C6: cleaning is idempotent, and every output tag is allowed. -/
theorem clean_labels_idempotent (l : List String) :
    clean_labels (clean_labels l) = clean_labels l ∧
    ∀ t ∈ clean_labels l, t ∈ expected_labels := by
  constructor
  · simp only [clean_labels, List.map_map]
    apply List.map_congr_left
    intro t _
    simp only [Function.comp]
    rw [if_pos (clean_tag_mem t)]
  · intro t ht
    simp only [clean_labels, List.mem_map] at ht
    obtain ⟨s, _, hs⟩ := ht
    exact hs ▸ clean_tag_mem s

/-- C1 counterexample: with a training corpus whose only (already clean) tag
is "O" and a test corpus containing the allowed tag "B-Gene", the cleaned test
corpus contains "B-Gene" (cleaning keeps allowed tags), yet "B-Gene" is absent
from `cleaned_unique_labels` built from the cleaned training corpus, and
`cleaned_unique_labels.index("B-Gene")` fails. -/
theorem vocab_covers_test_cex :
    "B-Gene" ∈ (([["B-Gene"]].map clean_labels).flatten) ∧
    "B-Gene" ∉ cleaned_unique_labels [["O"]] ∧
    listIndex (cleaned_unique_labels [["O"]]) "B-Gene" = none := by
  refine ⟨by decide, ?_, ?_⟩
  · rw [mem_cleaned_unique_labels]
    decide
  · decide

/-- C1 amended: every tag of the cleaned validation corpus (whose rows are
drawn from the cleaned training corpus) is in `cleaned_unique_labels`, and —
provided every tag occurring in the cleaned test corpus also occurs in the
cleaned training corpus — so is every tag of the cleaned test corpus; for any
such tag the vocabulary lookup `cleaned_unique_labels.index(tag)` succeeds. -/
theorem vocab_covers_splits (train_labels val_labels test_labels : List (List String))
    (hval : ∀ l ∈ val_labels, l ∈ train_labels.map clean_labels)
    (htest : ∀ t ∈ (test_labels.map clean_labels).flatten,
      t ∈ (train_labels.map clean_labels).flatten)
    (tag : String)
    (htag : tag ∈ val_labels.flatten ∨ tag ∈ (test_labels.map clean_labels).flatten) :
    tag ∈ cleaned_unique_labels train_labels ∧
    (listIndex (cleaned_unique_labels train_labels) tag).isSome := by
  have hmem : tag ∈ (train_labels.map clean_labels).flatten := by
    rcases htag with hv | ht
    · rw [List.mem_flatten] at hv
      obtain ⟨l, hl, htl⟩ := hv
      exact List.mem_flatten.mpr ⟨l, hval l hl, htl⟩
    · exact htest tag ht
  have hvocab : tag ∈ cleaned_unique_labels train_labels :=
    (mem_cleaned_unique_labels train_labels tag).mpr hmem
  exact ⟨hvocab, listIndex_isSome_of_mem hvocab⟩

/-- Witness for C1 amended at a concrete corpus: train `[["B-Gene","X"]]`
(cleaned to `["B-Gene","O"]`), validation `[["B-Gene","O"]]`, test `[["O"]]`,
tag "B-Gene". -/
theorem vocab_covers_splits_witness :
    "B-Gene" ∈ cleaned_unique_labels [["B-Gene", "X"]] ∧
    (listIndex (cleaned_unique_labels [["B-Gene", "X"]]) "B-Gene").isSome :=
  vocab_covers_splits [["B-Gene", "X"]] [["B-Gene", "O"]] [["O"]]
    (by decide) (by decide) "B-Gene" (by decide)

/-- The per-sentence label-alignment loop of `tokenize_and_align_labels`
(source lines 108–117): scan `word_ids` keeping `previous_word_idx`
(initially `None`); a `None` word id gets `-100`; a word id different from
the previous one gets `cleaned_unique_labels.index(label[word_idx])`; a
repeated word id gets `-100`; `previous_word_idx` is updated on every branch.
`label[word_idx]` out of range (`IndexError`) or a tag absent from the
vocabulary (`ValueError` from `list.index`) make the Python loop raise, which
we model as `none`. -/
def align_label_ids (vocab tags : List String) :
    Option Nat → List (Option Nat) → Option (List Int)
  | _, [] => some []
  | _, none :: rest =>
      (align_label_ids vocab tags none rest).map (fun l => -100 :: l)
  | prev, some w :: rest =>
      if some w = prev then
        (align_label_ids vocab tags (some w) rest).map (fun l => -100 :: l)
      else
        match tags[w]? with
        | none => none
        | some t =>
            match listIndex vocab t with
            | none => none
            | some k => (align_label_ids vocab tags (some w) rest).map
                (fun l => (k : Int) :: l)

/-- `tokenize_and_align_labels` restricted to one sentence, parameterized by
the tokenizer-provided `word_ids` (the tokenizer itself is an external
collaborator): the label list the loop appends for that sentence. -/
def tokenize_and_align_labels (vocab tags : List String)
    (word_ids : List (Option Nat)) : Option (List Int) :=
  align_label_ids vocab tags none word_ids

/-- The vocabulary index the loop appends for tag `t`, as an `Int`
(`label_ids` mixes real indices with the `-100` sentinel). -/
def vocabIndexInt (vocab : List String) (t : String) : Option Int :=
  (listIndex vocab t).map (fun k => (k : Int))

/-- The value the alignment loop emits at position `i`, as decided by the code:
`-100` for a special token, `-100` for a word id equal to the immediately
preceding entry of `word_ids` (`prev` before position 0), and the vocabulary
index of the word's tag otherwise. -/
def alignedAt (vocab tags : List String) :
    Option Nat → List (Option Nat) → Nat → Option Int
  | _, [], _ => none
  | _, none :: _, 0 => some (-100)
  | prev, some w :: _, 0 =>
      if prev = some w then some (-100) else vocabIndexInt vocab (tags.getD w "")
  | _, x :: rest, Nat.succ j => alignedAt vocab tags x rest j

theorem alignedAt_cons (vocab tags : List String) (prev x : Option Nat)
    (rest : List (Option Nat)) (j : Nat) :
    alignedAt vocab tags prev (x :: rest) (j + 1) = alignedAt vocab tags x rest j := by
  cases x <;> rfl

/-- `alignedAt` in terms of positional lookups: a `none` entry yields `-100`;
an entry `some w` yields `-100` exactly when the preceding entry (the initial
`prev` at position 0) is the same word id, and the tag's vocabulary index
otherwise. -/
theorem alignedAt_spec (vocab tags : List String) :
    ∀ (word_ids : List (Option Nat)) (prev : Option Nat) (i : Nat),
    (word_ids[i]? = some none → alignedAt vocab tags prev word_ids i = some (-100)) ∧
    (∀ w, word_ids[i]? = some (some w) →
      alignedAt vocab tags prev word_ids i =
        if (match i with
            | 0 => prev
            | Nat.succ j => word_ids[j]?.join) = some w then some (-100)
        else vocabIndexInt vocab (tags.getD w ""))
  | [], prev, i => by
      constructor
      · intro h
        simp at h
      · intro w h
        simp at h
  | x :: rest, prev, 0 => by
      constructor
      · intro h
        rw [List.getElem?_cons_zero] at h
        cases h
        rfl
      · intro w h
        rw [List.getElem?_cons_zero] at h
        cases h
        rfl
  | x :: rest, prev, Nat.succ j => by
      obtain ⟨ih1, ih2⟩ := alignedAt_spec vocab tags rest x j
      constructor
      · intro h
        rw [List.getElem?_cons_succ] at h
        rw [alignedAt_cons]
        exact ih1 h
      · intro w h
        rw [List.getElem?_cons_succ] at h
        rw [alignedAt_cons, ih2 w h]
        cases j <;> simp

/-- Domain condition under which the alignment loop cannot raise: every word
index in `word_ids` is in range for `tags` and its tag is in the vocabulary. -/
def alignDomOk (vocab tags : List String) (word_ids : List (Option Nat)) : Prop :=
  ∀ w ∈ word_ids.reduceOption, w < tags.length ∧ tags.getD w "" ∈ vocab

instance (vocab tags : List String) (word_ids : List (Option Nat)) :
    Decidable (alignDomOk vocab tags word_ids) := by
  unfold alignDomOk
  infer_instance

/-- Pointwise characterization of the alignment loop: on the domain condition
it succeeds, preserves length, and emits exactly `alignedAt` at every
position. -/
theorem align_label_ids_spec (vocab tags : List String) :
    ∀ (word_ids : List (Option Nat)) (prev : Option Nat),
    alignDomOk vocab tags word_ids →
    ∃ out, align_label_ids vocab tags prev word_ids = some out ∧
      out.length = word_ids.length ∧
      ∀ i, out[i]? = alignedAt vocab tags prev word_ids i
  | [], prev, _ => by
      refine ⟨[], rfl, rfl, fun i => ?_⟩
      simp [alignedAt]
  | none :: rest, prev, hdom => by
      have hdom' : alignDomOk vocab tags rest := by
        intro w hw
        exact hdom w (by simp [List.reduceOption_cons_of_none, hw])
      obtain ⟨out, hout, hlen, hat⟩ := align_label_ids_spec vocab tags rest none hdom'
      refine ⟨-100 :: out, ?_, by simp [hlen], fun i => ?_⟩
      · simp [align_label_ids, hout]
      · match i with
        | 0 =>
            rw [List.getElem?_cons_zero]
            rfl
        | Nat.succ j =>
            rw [List.getElem?_cons_succ, hat j]
            exact (alignedAt_cons vocab tags prev none rest j).symm
  | some w :: rest, prev, hdom => by
      have hw : w < tags.length ∧ tags.getD w "" ∈ vocab :=
        hdom w (by simp [List.reduceOption_cons_of_some])
      have hdom' : alignDomOk vocab tags rest := by
        intro v hv
        exact hdom v (by simp [List.reduceOption_cons_of_some, hv])
      obtain ⟨out, hout, hlen, hat⟩ := align_label_ids_spec vocab tags rest (some w) hdom'
      obtain ⟨k, hk⟩ := Option.isSome_iff_exists.mp (listIndex_isSome_of_mem hw.2)
      have htag : tags[w]? = some (tags.getD w "") := by
        rw [List.getD_eq_getElem?_getD, List.getElem?_eq_getElem hw.1]
        simp [List.getElem?_eq_getElem hw.1]
      have h0 : ∀ pv : Option Nat, alignedAt vocab tags pv (some w :: rest) 0
          = if pv = some w then some (-100)
            else vocabIndexInt vocab (tags.getD w "") :=
        fun pv => rfl
      by_cases hprev : some w = prev
      · subst hprev
        refine ⟨-100 :: out, ?_, by simp [hlen], fun i => ?_⟩
        · simp [align_label_ids, hout]
        · match i with
          | 0 => rw [List.getElem?_cons_zero, h0, if_pos rfl]
          | Nat.succ j =>
              rw [List.getElem?_cons_succ, hat j]
              exact (alignedAt_cons vocab tags (some w) (some w) rest j).symm
      · refine ⟨(k : Int) :: out, ?_, by simp [hlen], fun i => ?_⟩
        · simp only [align_label_ids, if_neg hprev, htag, hk, hout]
          rfl
        · match i with
          | 0 =>
              have hne : prev ≠ some w := fun h => hprev h.symm
              rw [List.getElem?_cons_zero, h0, if_neg hne, vocabIndexInt, hk]
              rfl
          | Nat.succ j =>
              rw [List.getElem?_cons_succ, hat j]
              exact (alignedAt_cons vocab tags prev (some w) rest j).symm

/-- The first position of `word_ids` carrying word index `w` ("first in scan
order"). -/
def firstIdx (word_ids : List (Option Nat)) (w : Nat) : Nat :=
  word_ids.findIdx (fun x => x == some w)

theorem firstIdx_spec : ∀ (word_ids : List (Option Nat)) (w : Nat),
    some w ∈ word_ids →
    firstIdx word_ids w < word_ids.length ∧
    word_ids[firstIdx word_ids w]? = some (some w) ∧
    ∀ i, i < firstIdx word_ids w → word_ids[i]? ≠ some (some w)
  | x :: rest, w, h => by
      by_cases hx : x = some w
      · have hfi : firstIdx (x :: rest) w = 0 := by
          rw [firstIdx, List.findIdx_cons]
          simp [hx]
        rw [hfi]
        exact ⟨Nat.succ_pos _, by rw [List.getElem?_cons_zero, hx],
          fun i hi => absurd hi (Nat.not_lt_zero i)⟩
      · have hxb : (x == some w) = false := beq_eq_false_iff_ne.mpr hx
        have hfi : firstIdx (x :: rest) w = firstIdx rest w + 1 := by
          rw [firstIdx, List.findIdx_cons, hxb]
          rfl
        have hmem : some w ∈ rest := (List.mem_cons.mp h).resolve_left (fun h' => hx h'.symm)
        obtain ⟨ih1, ih2, ih3⟩ := firstIdx_spec rest w hmem
        rw [hfi]
        refine ⟨Nat.succ_lt_succ ih1, by rw [List.getElem?_cons_succ]; exact ih2, ?_⟩
        intro i hi
        match i with
        | 0 =>
            rw [List.getElem?_cons_zero]
            intro hc
            exact hx (Option.some.inj hc)
        | Nat.succ j =>
            rw [List.getElem?_cons_succ]
            exact ih3 j (Nat.lt_of_succ_lt_succ hi)

/-- C2: for one sentence with cleaned tags `clean_labels raw_tags` and a
tokenizer word-index mapping `word_ids` in which equal word indices occupy
consecutive positions (the tokenizer's contract), the alignment loop
succeeds and: every special-token position (`None` word id) gets `-100`;
for every word index `w` occurring in `word_ids`, the first position
carrying `w` gets the vocabulary index of the cleaned tag of word `w`
(a non-ignore value), and every other position carrying `w` gets `-100`. -/
theorem tokenize_and_align_labels_spec (vocab raw_tags : List String)
    (word_ids : List (Option Nat))
    (hgrouped : ∀ (i j k : Fin word_ids.length), (i : Nat) < (j : Nat) →
      (j : Nat) < (k : Nat) → word_ids.get i = word_ids.get k →
      (word_ids.get i).isSome → word_ids.get j = word_ids.get i)
    (hdom : alignDomOk vocab (clean_labels raw_tags) word_ids) :
    ∃ out, tokenize_and_align_labels vocab (clean_labels raw_tags) word_ids = some out ∧
      out.length = word_ids.length ∧
      (∀ i : Nat, word_ids[i]? = some none → out[i]? = some (-100)) ∧
      (∀ w : Nat, some w ∈ word_ids →
        ∃ kw : Nat, listIndex vocab ((clean_labels raw_tags).getD w "") = some kw ∧
          out[firstIdx word_ids w]? = some (kw : Int) ∧
          (kw : Int) ≠ -100 ∧
          (∀ i : Nat, word_ids[i]? = some (some w) → i ≠ firstIdx word_ids w →
            out[i]? = some (-100))) := by
  obtain ⟨out, hout, hlen, hat⟩ :=
    align_label_ids_spec vocab (clean_labels raw_tags) word_ids none hdom
  refine ⟨out, hout, hlen, ?_, ?_⟩
  · intro i h
    rw [hat i]
    exact (alignedAt_spec vocab (clean_labels raw_tags) word_ids none i).1 h
  · intro w hw
    have hdomw := hdom w (List.reduceOption_mem_iff.mpr hw)
    obtain ⟨kw, hkw⟩ :=
      Option.isSome_iff_exists.mp (listIndex_isSome_of_mem hdomw.2)
    obtain ⟨hflt, hf?, hmin⟩ := firstIdx_spec word_ids w hw
    refine ⟨kw, hkw, ?_, ?_, ?_⟩
    · rw [hat _,
        (alignedAt_spec vocab (clean_labels raw_tags) word_ids none
          (firstIdx word_ids w)).2 w hf?]
      have hcond : (match firstIdx word_ids w with
          | 0 => (none : Option Nat)
          | Nat.succ j => word_ids[j]?.join) ≠ some w := by
        match hfe : firstIdx word_ids w with
        | 0 => simp
        | Nat.succ j =>
            intro hc
            have hc' : word_ids[j]?.join = some w := hc
            have hj? : word_ids[j]? = some (some w) := by
              cases hx : word_ids[j]? with
              | none => rw [hx] at hc'; simp at hc'
              | some o =>
                  cases o with
                  | none => rw [hx] at hc'; simp at hc'
                  | some v =>
                      rw [hx] at hc'
                      have hv : v = w := by simpa using hc'
                      rw [hv]
            exact hmin j (by rw [hfe]; exact Nat.lt_succ_self j) hj?
      rw [if_neg hcond, vocabIndexInt, hkw]
      rfl
    · intro hc
      have : (0 : Int) ≤ (kw : Int) := Int.ofNat_nonneg kw
      omega
    · intro i hi hine
      have hilt : i < word_ids.length := by
        by_contra hge
        rw [List.getElem?_eq_none (Nat.le_of_not_lt hge)] at hi
        cases hi
      have hfi : firstIdx word_ids w < i := by
        rcases Nat.lt_trichotomy i (firstIdx word_ids w) with hlt | heq | hgt
        · exact absurd hi (hmin i hlt)
        · exact absurd heq hine
        · exact hgt
      match i, hi, hfi, hilt with
      | Nat.succ j, hi, hfi, hilt =>
        rw [hat _,
          (alignedAt_spec vocab (clean_labels raw_tags) word_ids none (Nat.succ j)).2 w hi]
        have hj? : word_ids[j]? = some (some w) := by
          rcases Nat.lt_or_ge (firstIdx word_ids w) j with hlt | hge
          · have hjlt : j < word_ids.length := Nat.lt_of_succ_lt hilt
            have hgetf : word_ids.get ⟨firstIdx word_ids w, hflt⟩ = some w := by
              rw [List.get_eq_getElem]
              have h2 := List.getElem?_eq_getElem hflt
              rw [hf?] at h2
              exact (Option.some.inj h2).symm
            have hgeti : word_ids.get ⟨Nat.succ j, hilt⟩ = some w := by
              rw [List.get_eq_getElem]
              have h2 := List.getElem?_eq_getElem hilt
              rw [hi] at h2
              exact (Option.some.inj h2).symm
            have hgetj := hgrouped ⟨firstIdx word_ids w, hflt⟩ ⟨j, hjlt⟩
              ⟨Nat.succ j, hilt⟩ hlt (Nat.lt_succ_self j)
              (by rw [hgetf, hgeti]) (by rw [hgetf]; rfl)
            rw [hgetf] at hgetj
            rw [List.get_eq_getElem] at hgetj
            rw [List.getElem?_eq_getElem hjlt, hgetj]
          · have heqj : firstIdx word_ids w = j :=
              Nat.le_antisymm (Nat.lt_succ_iff.mp hfi) hge
            rw [← heqj]
            exact hf?
        have hcond : (match Nat.succ j with
            | 0 => (none : Option Nat)
            | Nat.succ j' => word_ids[j']?.join) = some w := by
          show word_ids[j]?.join = some w
          rw [hj?]
          rfl
        rw [if_pos hcond]

/-- Witness for C2 at the spec's scenario: one word with tag "B-SNP" split
into three subwords (plus special tokens at both ends). -/
theorem tokenize_and_align_labels_spec_witness :
    ∃ out, tokenize_and_align_labels ["O", "B-SNP"] (clean_labels ["B-SNP"])
        ([none, some 0, some 0, some 0, none] : List (Option Nat)) = some out ∧
      out.length = ([none, some 0, some 0, some 0, none] : List (Option Nat)).length ∧
      (∀ i : Nat, ([none, some 0, some 0, some 0, none] : List (Option Nat))[i]? = some none →
        out[i]? = some (-100)) ∧
      (∀ w : Nat, some w ∈ ([none, some 0, some 0, some 0, none] : List (Option Nat)) →
        ∃ kw : Nat, listIndex ["O", "B-SNP"] ((clean_labels ["B-SNP"]).getD w "") = some kw ∧
          out[firstIdx [none, some 0, some 0, some 0, none] w]? = some (kw : Int) ∧
          (kw : Int) ≠ -100 ∧
          (∀ i : Nat, ([none, some 0, some 0, some 0, none] : List (Option Nat))[i]? =
              some (some w) → i ≠ firstIdx [none, some 0, some 0, some 0, none] w →
            out[i]? = some (-100))) :=
  tokenize_and_align_labels_spec ["O", "B-SNP"] ["B-SNP"]
    [none, some 0, some 0, some 0, none] (by decide) (by decide)

/-- numpy's `argmax` along the last axis, for one position's class scores:
the first index attaining the maximum (scores are modelled as integers; only
their ordering matters for the decoding logic). `argmax` of an empty row is
arbitrary (numpy raises); we return 0. -/
def argmaxGo : List Int → Nat → Nat → Int → Nat
  | [], _, best, _ => best
  | v :: rest, i, best, bv =>
      if bv < v then argmaxGo rest (i + 1) i v else argmaxGo rest (i + 1) best bv

def argmax : List Int → Nat
  | [] => 0
  | v :: rest => argmaxGo rest 1 0 v

/-- Python list indexing `l[k]` with an integer index: negative indices count
from the end, out-of-range indices fail (`IndexError`). -/
def pyGet (l : List String) (k : Int) : Option String :=
  let i : Int := if k < 0 then k + l.length else k
  if i < 0 then none else l[i.toNat]?

/-- The inner loop of `align_predictions` for one sequence `i`: scan positions
`j` in order; a position whose gold label id is `-100` is skipped in both
outputs; otherwise the vocabulary string of the gold id and of
`argmax(scores)` are appended to the gold and predicted output lists. A gold
row shorter than the prediction row, or a lookup out of range, raises in
Python and is modelled as `none`. -/
def alignRow (vocab : List String) : List (List Int) → List Int → Option (List String × List String)
  | [], _ => some ([], [])
  | _ :: _, [] => none
  | scores :: ps, g :: gs =>
      match alignRow vocab ps gs with
      | none => none
      | some (pl, gl) =>
          if g ≠ -100 then
            match pyGet vocab (argmax scores), pyGet vocab g with
            | some pstr, some gstr => some (pstr :: pl, gstr :: gl)
            | _, _ => none
          else some (pl, gl)

/-- `align_predictions` of the source (lines 168–181): per-sequence decoding
of predictions and gold aligned label ids to parallel lists of label
strings. -/
def align_predictions (vocab : List String) :
    List (List (List Int)) → List (List Int) → Option (List (List String) × List (List String))
  | [], _ => some ([], [])
  | _ :: _, [] => none
  | row :: rows, g :: gs =>
      match alignRow vocab row g, align_predictions vocab rows gs with
      | some (pl, gl), some (pls, gls) => some (pl :: pls, gl :: gls)
      | _, _ => none

theorem pyGet_of_nonneg_lt {vocab : List String} {g : Int}
    (hge : 0 ≤ g) (hlt : g < (vocab.length : Int)) :
    ∃ s, pyGet vocab g = some s := by
  have hnneg : ¬g < 0 := not_lt.mpr hge
  have htn : g.toNat < vocab.length := by omega
  refine ⟨vocab.get ⟨g.toNat, htn⟩, ?_⟩
  simp only [pyGet, if_neg hnneg]
  rw [List.getElem?_eq_getElem htn, List.get_eq_getElem]

theorem alignRow_roundtrip (vocab : List String) :
    ∀ (predRow : List (List Int)) (goldRow : List Int),
    List.Forall₂ (fun (scores : List Int) (g : Int) =>
      g ≠ -100 → 0 ≤ g ∧ g < (vocab.length : Int) ∧ (argmax scores : Int) = g)
      predRow goldRow →
    ∃ pl gl, alignRow vocab predRow goldRow = some (pl, gl) ∧ pl = gl := by
  intro predRow goldRow H
  induction H with
  | nil => exact ⟨[], [], rfl, rfl⟩
  | cons h H' ih =>
      obtain ⟨pl, gl, hrow, heq⟩ := ih
      rename_i scores g ps gs
      by_cases hg : g = -100
      · refine ⟨pl, gl, ?_, heq⟩
        simp only [alignRow, hrow, hg]
        simp
      · obtain ⟨hge, hlt, hagree⟩ := h hg
        obtain ⟨s, hs⟩ := pyGet_of_nonneg_lt hge hlt
        have hps : pyGet vocab (argmax scores : Int) = some s := by rw [hagree, hs]
        refine ⟨s :: pl, s :: gl, ?_, by rw [heq]⟩
        simp only [alignRow, hrow, if_pos hg, hps, hs]

/-- C3: feeding gold back as predictions — for every batch of gold label-id
sequences and prediction scores whose argmax at each non-ignore gold position
equals that (in-range) gold id — makes `align_predictions` succeed with
`preds_list = out_label_list`; positions whose gold id is `-100` are skipped
in both outputs. -/
theorem align_predictions_roundtrip (vocab : List String)
    (predictions : List (List (List Int))) (label_ids : List (List Int))
    (H : List.Forall₂ (fun (predRow : List (List Int)) (goldRow : List Int) =>
      List.Forall₂ (fun (scores : List Int) (g : Int) =>
        g ≠ -100 → 0 ≤ g ∧ g < (vocab.length : Int) ∧ (argmax scores : Int) = g)
        predRow goldRow) predictions label_ids) :
    ∃ pl gl, align_predictions vocab predictions label_ids = some (pl, gl) ∧ pl = gl := by
  induction H with
  | nil => exact ⟨[], [], rfl, rfl⟩
  | cons h H' ih =>
      obtain ⟨pls, gls, hrows, heqs⟩ := ih
      rename_i row g rows gs
      obtain ⟨pl, gl, hrow, heq⟩ := alignRow_roundtrip vocab row g h
      refine ⟨pl :: pls, gl :: gls, ?_, by rw [heq, heqs]⟩
      simp only [align_predictions, hrow, hrows]

/-- Witness for C3: one sequence, class scores `[[0,5],[3,1]]` (argmax 1 then
argmax 0) against gold `[1, -100]`, vocabulary `["O", "B-Gene"]`. -/
theorem align_predictions_roundtrip_witness :
    ∃ pl gl, align_predictions ["O", "B-Gene"]
        [[[0, 5], [3, 1]]] [[1, -100]] = some (pl, gl) ∧ pl = gl :=
  align_predictions_roundtrip ["O", "B-Gene"] [[[0, 5], [3, 1]]] [[1, -100]]
    (List.Forall₂.cons
      (List.Forall₂.cons (fun _ => by refine ⟨by decide, by decide, ?_⟩; decide)
        (List.Forall₂.cons (fun h => absurd rfl h) List.Forall₂.nil))
      List.Forall₂.nil)

/-! ## IOB corpus loader

The line parser manipulates characters (`strip`, `split(',')`,
`startswith('#')`), so Python strings are modelled as `List Char` here. -/

/-- Python `str` at character level. -/
abbrev PyStr := List Char

/-- Python `str.strip()`: drop whitespace from both ends. -/
def pyStrip (s : PyStr) : PyStr :=
  ((s.dropWhile Char.isWhitespace).reverse.dropWhile Char.isWhitespace).reverse

/-- Python `str.split(sep)` for a one-character separator: split at every
occurrence; `"".split(sep) == [""]`. -/
def pySplitOn (sep : Char) : PyStr → List PyStr
  | [] => [[]]
  | c :: rest =>
      let r := pySplitOn sep rest
      if c = sep then [] :: r
      else
        match r with
        | [] => [[c]]
        | g :: gs => (c :: g) :: gs

/-- Python `str.startswith` for a one-character prefix. -/
def pyStartsWith (s : PyStr) (c : Char) : Bool :=
  match s with
  | [] => false
  | c0 :: _ => c0 = c

/-- The local mutable state of the `load_and_parse_iob` scan: the flushed
`sentences`/`labels` and the in-progress `sentence`/`label` accumulators. -/
structure ParseState where
  sentences : List (List PyStr)
  labels : List (List PyStr)
  sentence : List PyStr
  label : List PyStr
deriving DecidableEq

/-- One iteration of the `for line in data` loop of `load_and_parse_iob`
(source lines 38–54): strip the line; skip it when blank; on a `#` line
flush the accumulator when non-empty; otherwise split on `','` and append
stripped token and tag exactly when the split has two fields. -/
def processLine (st : ParseState) (rawLine : PyStr) : ParseState :=
  let line := pyStrip rawLine
  if line = [] then st
  else if pyStartsWith line '#' then
    if st.sentence ≠ [] then
      { sentences := st.sentences ++ [st.sentence], labels := st.labels ++ [st.label],
        sentence := [], label := [] }
    else st
  else
    match pySplitOn ',' line with
    | [token, tag] =>
        { st with sentence := st.sentence ++ [pyStrip token],
                  label := st.label ++ [pyStrip tag] }
    | _ => st

/-- `load_and_parse_iob` of the source, applied to the fetched text (the
HTTP fetch itself is an external collaborator): split on newlines, scan the
lines, and flush any remaining in-progress sentence. -/
def load_and_parse_iob (text : PyStr) : List (List PyStr) × List (List PyStr) :=
  let data := pySplitOn '\n' text
  let st := data.foldl processLine ⟨[], [], [], []⟩
  if st.sentence ≠ [] then
    (st.sentences ++ [st.sentence], st.labels ++ [st.label])
  else
    (st.sentences, st.labels)

/-- Invariant maintained by the scan: flushed sentences and labels are
pairwise length-equal and non-empty, and the two accumulators have equal
length. -/
def StateInv (st : ParseState) : Prop :=
  List.Forall₂ (fun (s l : List PyStr) => s.length = l.length ∧ s ≠ [] ∧ l ≠ [])
    st.sentences st.labels ∧
  st.sentence.length = st.label.length

theorem processLine_inv (st : ParseState) (line : PyStr) (h : StateInv st) :
    StateInv (processLine st line) := by
  obtain ⟨h1, h2⟩ := h
  unfold processLine
  by_cases hblank : pyStrip line = []
  · simp only [hblank, if_pos rfl]
    exact ⟨h1, h2⟩
  · rw [if_neg hblank]
    by_cases hcomment : pyStartsWith (pyStrip line) '#' = true
    · rw [if_pos hcomment]
      by_cases hne : st.sentence ≠ []
      · rw [if_pos hne]
        refine ⟨List.rel_append h1 ?_, rfl⟩
        refine List.Forall₂.cons ⟨h2, hne, ?_⟩ List.Forall₂.nil
        intro hl
        rw [hl] at h2
        exact hne (List.eq_nil_of_length_eq_zero h2)
      · rw [if_neg hne]
        exact ⟨h1, h2⟩
    · rw [if_neg hcomment]
      match pySplitOn ',' (pyStrip line) with
      | [] => exact ⟨h1, h2⟩
      | [_] => exact ⟨h1, h2⟩
      | [token, tag] =>
          refine ⟨h1, ?_⟩
          simp [h2]
      | _ :: _ :: _ :: _ => exact ⟨h1, h2⟩

theorem foldl_processLine_inv :
    ∀ (lines : List PyStr) (st : ParseState), StateInv st →
      StateInv (lines.foldl processLine st)
  | [], _, h => h
  | line :: rest, st, h =>
      foldl_processLine_inv rest (processLine st line) (processLine_inv st line h)

theorem forall₂_ne_nil {ss ls : List (List PyStr)}
    (h : List.Forall₂ (fun (s l : List PyStr) => s.length = l.length ∧ s ≠ [] ∧ l ≠ []) ss ls) :
    (∀ s ∈ ss, s ≠ []) ∧ (∀ l ∈ ls, l ≠ []) := by
  induction h with
  | nil => exact ⟨fun s hs => absurd hs (List.not_mem_nil s), fun l hl => absurd hl (List.not_mem_nil l)⟩
  | cons hr htl ih =>
      refine ⟨fun s hs => ?_, fun l hl => ?_⟩
      · rcases List.mem_cons.mp hs with h' | h'
        · rw [h']; exact hr.2.1
        · exact ih.1 s h'
      · rcases List.mem_cons.mp hl with h' | h'
        · rw [h']; exact hr.2.2
        · exact ih.2 l h'

theorem load_and_parse_iob_inv (text : PyStr) :
    List.Forall₂ (fun (s l : List PyStr) => s.length = l.length ∧ s ≠ [] ∧ l ≠ [])
      (load_and_parse_iob text).1 (load_and_parse_iob text).2 := by
  have hinv := foldl_processLine_inv (pySplitOn '\n' text) ⟨[], [], [], []⟩
    ⟨List.Forall₂.nil, rfl⟩
  unfold load_and_parse_iob
  by_cases hne : ((pySplitOn '\n' text).foldl processLine ⟨[], [], [], []⟩).sentence ≠ []
  · rw [if_pos hne]
    refine List.rel_append hinv.1 ?_
    refine List.Forall₂.cons ⟨hinv.2, hne, ?_⟩ List.Forall₂.nil
    intro hl
    have h2 := hinv.2
    rw [hl] at h2
    exact hne (List.eq_nil_of_length_eq_zero (by simpa using h2))
  · rw [if_neg hne]
    exact hinv.1

/-- C4: for every input text, every parsed sentence has token and tag lists
of equal length, and the outer sentence and label sequences have the same
length (index-aligned). -/
theorem load_and_parse_iob_lengths (text : PyStr) :
    (load_and_parse_iob text).1.length = (load_and_parse_iob text).2.length ∧
    List.Forall₂ (fun (s l : List PyStr) => s.length = l.length)
      (load_and_parse_iob text).1 (load_and_parse_iob text).2 := by
  have h := load_and_parse_iob_inv text
  exact ⟨List.Forall₂.length_eq h, List.Forall₂.imp (fun s l hr => hr.1) h⟩

/-- C10: the parser never emits an empty sentence or an empty tag list, and
an input with no data lines (empty input, or only comment and blank lines)
yields zero sentences rather than an error. -/
theorem load_and_parse_iob_no_empty (text : PyStr) :
    (∀ s ∈ (load_and_parse_iob text).1, s ≠ []) ∧
    (∀ l ∈ (load_and_parse_iob text).2, l ≠ []) ∧
    load_and_parse_iob [] = ([], []) ∧
    load_and_parse_iob ("# a\n\n# b\nmalformed line".toList) = ([], []) := by
  have h := forall₂_ne_nil (load_and_parse_iob_inv text)
  exact ⟨h.1, h.2, by decide, by decide⟩

/-- C7: a comment line flushes the in-progress accumulator exactly when it is
non-empty (resetting it) and contributes no token; the scenario
`"Arg123,B-Gene"`, `"His,I-Gene"`, a comment line, then `"The,O"` yields the
first sentence `(["Arg123","His"], ["B-Gene","I-Gene"])` flushed at the
comment, with `"The"` starting the second sentence (flushed at end of
input). -/
theorem comment_line_flush (st : ParseState) (line : PyStr)
    (hc : pyStartsWith (pyStrip line) '#' = true) :
    (st.sentence ≠ [] → processLine st line =
      ⟨st.sentences ++ [st.sentence], st.labels ++ [st.label], [], []⟩) ∧
    (st.sentence = [] → processLine st line = st) ∧
    load_and_parse_iob ("Arg123,B-Gene\nHis,I-Gene\n# comment\nThe,O".toList) =
      ([["Arg123".toList, "His".toList], ["The".toList]],
       [["B-Gene".toList, "I-Gene".toList], ["O".toList]]) := by
  have hnb : pyStrip line ≠ [] := by
    intro h
    rw [h] at hc
    simp [pyStartsWith] at hc
  refine ⟨fun hne => ?_, fun hnil => ?_, by decide⟩
  · simp only [processLine]
    rw [if_neg hnb, if_pos hc, if_pos hne]
  · simp only [processLine]
    rw [if_neg hnb, if_pos hc, if_neg (by simp [hnil])]

/-- Witness for C7 at a concrete state and comment line. -/
theorem comment_line_flush_witness :
    processLine ⟨[], [], [['a']], [['O']]⟩ ("# x".toList) =
      ⟨[[['a']]], [[['O']]], [], []⟩ ∧
    processLine ⟨[], [], [], []⟩ ("# x".toList) = ⟨[], [], [], []⟩ :=
  ⟨(comment_line_flush ⟨[], [], [['a']], [['O']]⟩ ("# x".toList) (by decide)).1 (by decide),
   (comment_line_flush ⟨[], [], [], []⟩ ("# x".toList) (by decide)).2.1 rfl⟩

/-- C8: a line that is blank after stripping is skipped without flushing —
the scan state is unchanged — so data lines separated only by blank lines
end up in the same sentence, as in the scenario
`"a,B-Gene\n\n   \nb,O"` parsing to the single sentence `(["a","b"],
["B-Gene","O"])`. -/
theorem blank_line_skip (st : ParseState) (line : PyStr)
    (hb : pyStrip line = []) :
    processLine st line = st ∧
    load_and_parse_iob ("a,B-Gene\n\n   \nb,O".toList) =
      ([[['a'], ['b']]], [["B-Gene".toList, ['O']]]) := by
  constructor
  · simp only [processLine]
    rw [if_pos hb]
  · decide

/-- Witness for C8 at a concrete state and a whitespace-only line. -/
theorem blank_line_skip_witness :
    processLine ⟨[], [], [['a']], [['O']]⟩ ("  ".toList) = ⟨[], [], [['a']], [['O']]⟩ :=
  (blank_line_skip ⟨[], [], [['a']], [['O']]⟩ ("  ".toList) (by decide)).1

/-! ## Training/evaluation driver control flow

`train` (source lines 127–198) wraps its training/evaluation/prediction body
in `try/except Exception/finally`. The body's interactions with the external
collaborators (trainer, tracking service) are abstracted as a list of
fallible steps: each step either returns normally, emitting an observable
effect, or raises an exception carrying a message. What is verified is the
driver's control flow around that body. -/

/-- Observable effects of one `train` trial, in emission order. -/
inductive Effect where
  | logMetric (name : String)
  | logReport
  | logError (msg : String)
  | alert (msg : String)
  | finish
deriving DecidableEq

/-- Run the try-block body: execute steps in order, collecting emitted
effects, stopping at the first raised exception (whose message is
returned). -/
def runBody : List (Except String Effect) → List Effect × Option String
  | [] => ([], none)
  | Except.ok eff :: rest =>
      let r := runBody rest
      (eff :: r.1, r.2)
  | Except.error e :: _ => ([], some e)

/-- The `try/except Exception as e/finally` of `train` (source lines
131–198): on an exception the driver logs the error and sends a
`wandb.alert` with the error's message, and on every path the `finally`
block runs `run.finish()` last; `train` always returns normally (it returns
a trace, never an exception). -/
def train (steps : List (Except String Effect)) : List Effect :=
  match (runBody steps).2 with
  | none => (runBody steps).1 ++ [Effect.finish]
  | some e => (runBody steps).1 ++ [Effect.logError e, Effect.alert e, Effect.finish]

/-- C9: for every trial body (any sequence of fallible steps), `train`
returns normally with `run.finish` executed as the last action, and whenever
the body raised with message `e`, the trace contains the logged error and an
alert carrying `e`. -/
theorem train_error_handling (steps : List (Except String Effect)) :
    (train steps).getLast? = some Effect.finish ∧
    ∀ e, (runBody steps).2 = some e →
      Effect.logError e ∈ train steps ∧ Effect.alert e ∈ train steps := by
  unfold train
  cases herr : (runBody steps).2 with
  | none =>
      refine ⟨List.getLast?_concat _, fun e he => ?_⟩
      cases he
  | some e0 =>
      refine ⟨?_, fun e he => ?_⟩
      · have h3 : (runBody steps).1 ++ [Effect.logError e0, Effect.alert e0, Effect.finish]
            = ((runBody steps).1 ++ [Effect.logError e0, Effect.alert e0]) ++ [Effect.finish] := by
          simp
        show ((runBody steps).1 ++
          [Effect.logError e0, Effect.alert e0, Effect.finish]).getLast? = some Effect.finish
        rw [h3]
        exact List.getLast?_concat _
      · cases he
        exact ⟨List.mem_append.mpr (Or.inr (by simp)),
          List.mem_append.mpr (Or.inr (by simp))⟩

/-- Witness for C9: a body that logs the evaluation loss and then raises
"boom". -/
theorem train_error_handling_witness :
    (train [Except.ok (Effect.logMetric "eval_loss"), Except.error "boom"]).getLast?
      = some Effect.finish ∧
    Effect.logError "boom" ∈ train [Except.ok (Effect.logMetric "eval_loss"), Except.error "boom"] ∧
    Effect.alert "boom" ∈ train [Except.ok (Effect.logMetric "eval_loss"), Except.error "boom"] :=
  ⟨(train_error_handling [Except.ok (Effect.logMetric "eval_loss"), Except.error "boom"]).1,
   (train_error_handling [Except.ok (Effect.logMetric "eval_loss"), Except.error "boom"]).2
     "boom" rfl⟩

/-- Witness for C5 at the unexpected tag "B-Disease". -/
theorem clean_labels_spec_witness :
    (clean_labels ["B-Disease"])[0]? = some "O" :=
  (clean_labels_spec ["B-Disease"]).2.2.1 0 (by decide)

/-- Witness for C6 at a concrete tag list. -/
theorem clean_labels_idempotent_witness :
    clean_labels (clean_labels ["B-Disease"]) = clean_labels ["B-Disease"] ∧
    "O" ∈ expected_labels :=
  ⟨(clean_labels_idempotent ["B-Disease"]).1,
   (clean_labels_idempotent ["B-Disease"]).2 "O" (by decide)⟩

/-- Witness for C10 at a concrete one-line corpus. -/
theorem load_and_parse_iob_no_empty_witness :
    ([['x']] : List PyStr) ≠ [] ∧ load_and_parse_iob [] = ([], []) :=
  ⟨(load_and_parse_iob_no_empty ("x,O".toList)).1 [['x']] (by decide),
   (load_and_parse_iob_no_empty []).2.2.1⟩

end NER
